import Mathlib

/-!
Shallow embedding of the calendar-sync / LLM-extraction pipeline:

* `src/actions/ai/parsing-actions.ts` — `chunkText`, `deduplicateSubEvents`,
  and the per-candidate persistence step of `handleParsedSchedule`;
* `src/app/(dashboard)/schedule/_components/timeline.tsx` — the sort and
  greedy overlap-grouping of `groupOverlapping`;
* the Google-calendar sync action (`syncCalendarEventsAction`) with its
  per-event upsert, link-change detection and enrichment trigger.

Strings are modelled by Lean `String` (with the character-list functions
`jsTrim` / `jsToLower` standing for the JavaScript `trim()` /
`toLowerCase()`, which agree with them on ASCII data), JavaScript
`Date` instants by `Int` (epoch milliseconds, order-isomorphic to `Date`
comparison), nullable values by `Option`, and database rows by explicit
record lists.  External collaborators (the Google API, the LLM, the page
scraper) appear as oracle parameters universally quantified in the theorems.
-/

namespace Spec2Proof

/-- JavaScript `String.prototype.trim()`: strip leading and trailing
whitespace. -/
def jsTrim (s : String) : String :=
  (((s.toList.dropWhile Char.isWhitespace).reverse.dropWhile
      Char.isWhitespace).reverse).asString

/-- JavaScript `String.prototype.toLowerCase()` (character-wise). -/
def jsToLower (s : String) : String :=
  (s.toList.map Char.toLower).asString

/-- JavaScript truthiness of a `string | null | undefined` value:
`null`, `undefined` and the empty string are falsy. -/
def jsTruthyStr (o : Option String) : Bool :=
  match o with
  | none => false
  | some s => s ≠ ""

/-- The JavaScript pattern `x || null` for `x : string | null | undefined`:
a falsy value (missing or empty string) collapses to `null`. -/
def jsOrNullStr (o : Option String) : Option String :=
  match o with
  | none => none
  | some s => if s = "" then none else some s

/-- The pattern `x?.trim() || null` used by `handleParsedSchedule` for the
`startTime` / `endTime` / `speaker` / `speakerPosition` / `speakerCompany`
fields: a missing field or a blank string is stored as `null`. -/
def jsTrimOrNull (o : Option String) : Option String :=
  match o with
  | none => none
  | some s => if jsTrim s = "" then none else some (jsTrim s)

/-- The pattern `x?.trim() || ""` (used for `parentLoc` and `childLoc`). -/
def jsTrimOrEmpty (o : Option String) : String :=
  match o with
  | none => ""
  | some s => jsTrim s

/-- The pattern `x?.trim() || d` with a non-empty default `d`
(used for `subEventName` with `d = "Untitled Session"`). -/
def jsTrimOrDefault (o : Option String) (d : String) : String :=
  match o with
  | none => d
  | some s => if jsTrim s = "" then d else jsTrim s

/-! ## Chunker (`chunkText`, parsing-actions.ts lines 63–73)

The source is a `while (start < text.length)` loop pushing
`text.slice(start, start + maxLen)` and advancing `start` by `maxLen`.
With `maxLen = 0` the loop never terminates, so the embedding uses
explicit fuel and returns `none` when the fuel is exhausted; text is
modelled as a list of characters (JavaScript `slice` clamps at the end of
the string, which is `take`/`drop` on lists). -/

/-- One fuel-metered run of the `chunkText` loop: each iteration emits
`text.take maxLen` and continues on `text.drop maxLen`. -/
def chunkTextGo (maxLen : Nat) : Nat → List Char → Option (List (List Char))
  | _, [] => some []
  | 0, _ :: _ => none
  | fuel + 1, c :: cs =>
    (chunkTextGo maxLen fuel ((c :: cs).drop maxLen)).map
      (fun rest => (c :: cs).take maxLen :: rest)

/-- Model of `chunkText(text, maxLen)`: the loop runs at most `text.length`
iterations whenever `maxLen > 0`, so that much fuel is supplied. -/
def chunkText (text : List Char) (maxLen : Nat) : Option (List (List Char)) :=
  chunkTextGo maxLen text.length text

/-! ## Extraction candidates and deduplication
(`GPTSubEvent`, `deduplicateSubEvents`, parsing-actions.ts lines 35–56 and 159–176) -/

/-- The shape GPT returns for one sub-event (all fields optional). -/
structure GPTSubEvent where
  startTime : Option String
  endTime : Option String
  title : Option String
  speaker : Option String
  speakerPosition : Option String
  speakerCompany : Option String
  location : Option String
  eventId : Option String
deriving DecidableEq, Repr

/-- The root-level object from GPT: main location plus candidate sub-events. -/
structure GPTParsedSchedule where
  location : Option String
  subEvents : Option (List GPTSubEvent)
deriving DecidableEq, Repr

/-- The composite key built inside `deduplicateSubEvents`:
`` `${speaker}||${start}||${end}` `` where each component is
`(field ?? "").trim().toLowerCase()`. -/
def fingerprint (se : GPTSubEvent) : String :=
  jsToLower (jsTrim (se.speaker.getD "")) ++ "||" ++
    jsToLower (jsTrim (se.startTime.getD "")) ++ "||" ++
    jsToLower (jsTrim (se.endTime.getD ""))

/-- The loop of `deduplicateSubEvents`: a candidate is kept exactly when its
composite key has not been seen before (`uniqueMap.has(key)`), and kept
candidates come out in insertion order (`Array.from(uniqueMap.values())`). -/
def dedupeAux (seen : List String) : List GPTSubEvent → List GPTSubEvent
  | [] => []
  | se :: rest =>
    let key := fingerprint se
    if key ∈ seen then dedupeAux seen rest
    else se :: dedupeAux (key :: seen) rest

/-- Model of `deduplicateSubEvents` (parsing-actions.ts lines 159–176). -/
def deduplicateSubEvents (subEvents : List GPTSubEvent) : List GPTSubEvent :=
  dedupeAux [] subEvents

/-- Modelled from the spec wording for claim C3: keep the first occurrence of
every fingerprint, drop all later ones.  Compared against
`deduplicateSubEvents` in the refinement theorem. -/
def firstOccurrences : List GPTSubEvent → List GPTSubEvent
  | [] => []
  | se :: rest =>
    se :: (firstOccurrences rest).filter (fun x => fingerprint x != fingerprint se)

/-- A candidate lacking all three fingerprint fields
(`speaker`, `startTime`, `endTime` all absent). -/
def lacksAllThree (se : GPTSubEvent) : Bool :=
  se.speaker.isNone && se.startTime.isNone && se.endTime.isNone

/-! ## Persistence step of `handleParsedSchedule`
(parsing-actions.ts lines 269–334) -/

/-- The row handed to `createSubEventAction` for one surviving candidate. -/
structure InsertSubEvent where
  eventId : String
  startTime : Option String
  endTime : Option String
  subEventName : String
  speaker : Option String
  speakerPosition : Option String
  speakerCompany : Option String
  location : Option String
deriving DecidableEq, Repr

/-- The per-candidate body of the insertion loop of `handleParsedSchedule`:
times, speaker fields and name are defaulted field by field, and the final
location joins `parentLoc` and the candidate's own (trimmed) location with
`" -- "` when both are non-empty, otherwise keeps whichever is non-empty,
otherwise stores `null` (`finalLoc || null`). -/
def buildSubEventData (eventId : String) (parentLoc : String)
    (gptSub : GPTSubEvent) : InsertSubEvent :=
  let start := jsTrimOrNull gptSub.startTime
  let stop := jsTrimOrNull gptSub.endTime
  let childLoc := jsTrimOrEmpty gptSub.location
  let finalLoc :=
    if parentLoc ≠ "" ∧ childLoc ≠ "" then parentLoc ++ " -- " ++ childLoc
    else if parentLoc ≠ "" ∧ childLoc = "" then parentLoc
    else if parentLoc = "" ∧ childLoc ≠ "" then childLoc
    else ""
  { eventId := eventId
    startTime := start
    endTime := stop
    subEventName := jsTrimOrDefault gptSub.title "Untitled Session"
    speaker := jsTrimOrNull gptSub.speaker
    speakerPosition := jsTrimOrNull gptSub.speakerPosition
    speakerCompany := jsTrimOrNull gptSub.speakerCompany
    location := if finalLoc = "" then none else some finalLoc }

/-- The rows `handleParsedSchedule` inserts for a parsed schedule, given the
parent event row's stored location (`eventRes.data.location`); the parent
location is first normalised by `location?.trim() || ""`. -/
def handleParsedScheduleInserts (eventId : String) (rowLoc : Option String)
    (parsed : GPTParsedSchedule) : List InsertSubEvent :=
  let parentLoc := jsTrimOrEmpty rowLoc
  (parsed.subEvents.getD []).map (buildSubEventData eventId parentLoc)

/-- Modelled from the spec wording for claim C5: both locations present
(non-empty after trimming) ⇒ `"{parent} -- {child}"`; exactly one present ⇒
that one; neither ⇒ `null`.  Compared against the location stored by
`buildSubEventData`. -/
def specMergedLocation (rowLoc childLoc : Option String) : Option String :=
  let p := jsTrim (rowLoc.getD "")
  let c := jsTrim (childLoc.getD "")
  if p ≠ "" ∧ c ≠ "" then some (p ++ " -- " ++ c)
  else if p ≠ "" then some p
  else if c ≠ "" then some c
  else none

/-! ## Timeline assembler (`groupOverlapping`, timeline.tsx lines 100–143)

`Date` instants are modelled by `Int` (epoch milliseconds): `getTime`
subtraction and `Date` `<=` / `>` comparison are order-isomorphic to `Int`
comparison, and a `Date` object is always truthy. -/

/-- One timeline item (`SubEventWithParent`, timeline.tsx lines 6–18);
`start`, `end` and `parentDate` are nullable instants.  The source field
`end` is a Lean keyword, hence the quoted name. -/
structure SubEventWithParent where
  id : String
  subEventName : String
  speaker : String
  speakerPosition : String
  speakerCompany : String
  parentEventTitle : String
  parentLocation : String
  parentLink : String
  parentDate : Option Int
  start : Option Int
  «end» : Option Int
deriving DecidableEq, Repr

/-- The comparator of `groupOverlapping`'s sort, as a boolean total preorder
(`timelineLe a b` iff the JavaScript comparator returns `≤ 0`): items with a
start instant are ordered by it and come BEFORE items without one
(`a.start && !b.start` returns `-1`); two items without a start tie. -/
def timelineLe (a b : SubEventWithParent) : Bool :=
  match a.start, b.start with
  | some sa, some sb => sa ≤ sb
  | some _, none => true
  | none, some _ => false
  | none, none => true

/-- The sorting pass `subEvents.sort(...)` of `groupOverlapping`; JavaScript
`Array.prototype.sort` is stable, hence a stable merge sort under the
comparator-induced total preorder. -/
def sortByStart (subEvents : List SubEventWithParent) : List SubEventWithParent :=
  subEvents.mergeSort timelineLe

/-- The guard `st && currentGroupEnd && st <= currentGroupEnd`: the item
joins the current group only when both instants are defined and its start is
at most the running group end (inclusive). -/
def overlapsRunning (st currentGroupEnd : Option Int) : Bool :=
  match st, currentGroupEnd with
  | some s, some e => s ≤ e
  | _, _ => false

/-- The update `if (en && en > currentGroupEnd) currentGroupEnd = en`. -/
def updateGroupEnd (en currentGroupEnd : Option Int) : Option Int :=
  match en, currentGroupEnd with
  | some x, some e => if e < x then some x else some e
  | _, _ => currentGroupEnd

/-- The effective end `sub.end ?? st` of an item (nullish coalescing). -/
def effectiveEnd (sub : SubEventWithParent) : Option Int :=
  match sub.«end» with
  | some x => some x
  | none => sub.start

/-- The grouping loop of `groupOverlapping` (timeline.tsx lines 111–140),
with the `result` array, the `currentGroup` array and the running
`currentGroupEnd` made explicit. -/
def groupLoop : List SubEventWithParent → List (List SubEventWithParent) →
    List SubEventWithParent → Option Int → List (List SubEventWithParent)
  | [], result, currentGroup, _ =>
    if currentGroup.isEmpty then result else result ++ [currentGroup]
  | sub :: rest, result, currentGroup, currentGroupEnd =>
    let st := sub.start
    let en := effectiveEnd sub
    if currentGroup.isEmpty then
      groupLoop rest result [sub] en
    else if overlapsRunning st currentGroupEnd then
      groupLoop rest result (currentGroup ++ [sub]) (updateGroupEnd en currentGroupEnd)
    else
      groupLoop rest (result ++ [currentGroup]) [sub] en

/-- Model of `groupOverlapping` (timeline.tsx lines 100–143): sort by start, then
greedily partition into overlap groups. -/
def groupOverlapping (subEvents : List SubEventWithParent) :
    List (List SubEventWithParent) :=
  groupLoop (sortByStart subEvents) [] [] none

/-- A throwaway timeline item with every field empty, used to build the
concrete instances appearing in witnesses and counterexamples. -/
def blankItem : SubEventWithParent :=
  { id := "", subEventName := "", speaker := "", speakerPosition := ""
    speakerCompany := "", parentEventTitle := "", parentLocation := ""
    parentLink := "", parentDate := none, start := none, «end» := none }

/-! ## Calendar sync orchestrator (`syncCalendarEventsAction`)

Database rows of `eventsTable` are modelled as a list of records whose `id`
(a UUID in the source) is a `Nat` drawn from a fresh-id counter.  The
enrichment call `processExternalLinkAction` is external I/O; its effect on
the events table (at most a location overwrite on the processed event, via
`handleParsedSchedule` → `updateEventAction(eventId, { location })`) and its
reported outcome are supplied by an oracle, and every invocation is recorded
in `enrichLog`. -/

/-- A stored row of `eventsTable` (events-schema). -/
structure EventRow where
  id : Nat
  userId : String
  eventTitle : String
  startTime : Option String
  endTime : Option String
  location : Option String
  externalLink : Option String
  calendarEventId : Option String
deriving DecidableEq, Repr

/-- The `start` member of a Google calendar item: `{ dateTime? | date? }`. -/
structure GoogleItemStart where
  dateTime : Option String
  date : Option String
deriving DecidableEq, Repr

/-- One item of the Google calendar response. -/
structure GoogleItem where
  id : Option String
  summary : Option String
  description : Option String
  location : Option String
  start : Option GoogleItemStart
deriving DecidableEq, Repr

/-- Outcome of one `processExternalLinkAction` call as seen by the sync loop:
a success, a reported failure (`isSuccess: false`), or a thrown error. -/
inductive EnrichOutcome where
  | success
  | failure (msg : String)
  | thrown (msg : String)
deriving DecidableEq, Repr

/-- Oracle answer for one enrichment invocation: the reported outcome plus
the location overwrite (if any) the enrichment performed on the event row. -/
structure EnrichResult where
  outcome : EnrichOutcome
  locUpdate : Option String
deriving DecidableEq, Repr

/-- Mutable state threaded through the sync: the `eventsTable` rows, the
fresh-id counter, and the log of enrichment invocations (event ids passed to
`processExternalLinkAction`, in order). -/
structure SyncState where
  rows : List EventRow
  nextId : Nat
  enrichLog : List Nat
deriving DecidableEq, Repr

/-- Well-formedness of the modelled events table: row ids are distinct and
below the fresh-id counter (the model of distinct UUID primary keys). -/
def wfState (st : SyncState) : Prop :=
  (st.rows.map (fun r => r.id)).Nodup ∧ ∀ r ∈ st.rows, r.id < st.nextId

/-- The leftmost match of the link regex `/(https?:\/\/[^\s]+)/i` at the head
of `cs`: a case-insensitive `https://` or `http://` scheme followed by at
least one non-whitespace character, extended greedily. -/
def matchLinkAt (cs : List Char) : Option (List Char) :=
  let lowered := cs.map Char.toLower
  if lowered.take 8 = "https://".toList then
    let tail := (cs.drop 8).takeWhile (fun c => !c.isWhitespace)
    if tail.isEmpty then none else some (cs.take 8 ++ tail)
  else if lowered.take 7 = "http://".toList then
    let tail := (cs.drop 7).takeWhile (fun c => !c.isWhitespace)
    if tail.isEmpty then none else some (cs.take 7 ++ tail)
  else none

/-- Scan for the leftmost position where the link regex matches. -/
def firstLinkAux : List Char → Option (List Char)
  | [] => none
  | c :: rest =>
    match matchLinkAt (c :: rest) with
    | some m => some m
    | none => firstLinkAux rest

/-- Model of `extractFirstLink`: first http(s) link of a string, or `null`. -/
def extractFirstLink (text : String) : Option String :=
  (firstLinkAux text.toList).map List.asString

/-- The `dateOnly` derivation of the upsert loop: a `start.dateTime` is
parsed and truncated to midnight (`truncDT`, abstracting the local-time
`Date` arithmetic and `toISOString`), a bare `start.date` is parsed directly
(`parseD`); both guards use string truthiness. -/
def derivedStartTime (truncDT parseD : String → String)
    (start : Option GoogleItemStart) : Option String :=
  match start with
  | none => none
  | some st =>
    if jsTruthyStr st.dateTime then some (truncDT (st.dateTime.getD ""))
    else if jsTruthyStr st.date then some (parseD (st.date.getD ""))
    else none

/-- The `InsertEvent` object (`eventData`) built for one Google item. -/
structure EventData where
  userId : String
  eventTitle : String
  calendarEventId : Option String
  startTime : Option String
  location : Option String
  externalLink : Option String
deriving DecidableEq, Repr

/-- Build `eventData` from a Google item: title from `item.summary`, link =
first http(s) URL of `item.description ?? ""` (then `|| null`), location =
`item.location || null`, start time from the date-only derivation. -/
def buildEventData (userId : String) (truncDT parseD : String → String)
    (item : GoogleItem) : EventData :=
  { userId := userId
    eventTitle := item.summary.getD ""
    calendarEventId := item.id
    startTime := derivedStartTime truncDT parseD item.start
    location := jsOrNullStr item.location
    externalLink := jsOrNullStr (extractFirstLink (item.description.getD "")) }

/-- The `findFirst` filter
`and(eq(eventsTable.userId, userId), eq(eventsTable.calendarEventId, item.id))`
(SQL equality against a non-null value). -/
def matchesKey (userId idStr : String) (r : EventRow) : Bool :=
  r.userId == userId && r.calendarEventId == some idStr

/-- Model of `db.update(eventsTable).set(eventData).where(eq(eventsTable.id, rid))`:
overwrite the `eventData` columns of every row whose id is `rid` (under the
well-formedness invariant exactly one row), keeping `id` and `endTime`. -/
def applyUpdate (d : EventData) (rid : Nat) (rows : List EventRow) : List EventRow :=
  rows.map (fun r =>
    if r.id == rid then
      { r with userId := d.userId, eventTitle := d.eventTitle
               calendarEventId := d.calendarEventId, startTime := d.startTime
               location := d.location, externalLink := d.externalLink }
    else r)

/-- One `processExternalLinkAction(finalEventId)` call: the invocation is
logged, the oracle's location overwrite (if any) is applied to that row, and
— mirroring the `try`/`catch` and the `if (!parseResult.isSuccess)` warning —
the reported outcome does not influence the state. -/
def applyProcessExternalLink (oracle : Nat → EnrichResult) (eventId : Nat)
    (st : SyncState) : SyncState :=
  let rows' :=
    match (oracle eventId).locUpdate with
    | none => st.rows
    | some loc =>
      st.rows.map (fun r => if r.id == eventId then { r with location := some loc } else r)
  match (oracle eventId).outcome with
  | .success => { st with rows := rows', enrichLog := st.enrichLog ++ [eventId] }
  | .failure _ => { st with rows := rows', enrichLog := st.enrichLog ++ [eventId] }
  | .thrown _ => { st with rows := rows', enrichLog := st.enrichLog ++ [eventId] }

/-- The body of the per-event upsert loop (part_007 lines 78–160): skip items
lacking a truthy id or summary; find the existing row keyed by
`(userId, item.id)`; update it (recording whether the non-null link differs
from the stored one) or insert a fresh row (a non-null link on insert counts
as new: `!!newEvent.externalLink`, and the returned row's link is the
inserted `eventData.externalLink`); then enrich exactly when the link is new
or changed. -/
def processItem (userId : String) (truncDT parseD : String → String)
    (oracle : Nat → EnrichResult) (st : SyncState) (item : GoogleItem) : SyncState :=
  if !jsTruthyStr item.id || !jsTruthyStr item.summary then st
  else
    let idStr := item.id.getD ""
    let d := buildEventData userId truncDT parseD item
    match st.rows.find? (matchesKey userId idStr) with
    | some existing =>
      let linkIsNewOrChanged := d.externalLink.isSome && d.externalLink != existing.externalLink
      let st' := { st with rows := applyUpdate d existing.id st.rows }
      if linkIsNewOrChanged then applyProcessExternalLink oracle existing.id st' else st'
    | none =>
      let newRow : EventRow :=
        { id := st.nextId, userId := d.userId, eventTitle := d.eventTitle
          startTime := d.startTime, endTime := none, location := d.location
          externalLink := d.externalLink, calendarEventId := d.calendarEventId }
      let st' : SyncState :=
        { rows := st.rows ++ [newRow], nextId := st.nextId + 1, enrichLog := st.enrichLog }
      if d.externalLink.isSome then applyProcessExternalLink oracle st.nextId st'
      else st'

/-- The stored user profile fields consulted by the sync. -/
structure Profile where
  googleAccessToken : Option String
  googleRefreshToken : Option String
  googleTokenExpires : Option Int
deriving DecidableEq, Repr

/-- The Google calendar response: `items` is `none` when the response has no
valid events array (`!Array.isArray(googleEvents.items)`). -/
structure GoogleEventsResponse where
  items : Option (List GoogleItem)
deriving DecidableEq, Repr

/-- Model of `syncCalendarEventsAction` (part_007 lines 15–174), returning the
`isSuccess` flag together with the final state.  `profile` is the stored
credential lookup, `now` the current instant, `refreshResult` the token
returned by `refreshGoogleToken`, and `fetchResult` the provider response for
the time window actually used. -/
def syncCalendarEventsAction (userId : String) (profile : Option Profile)
    (now : Int) (refreshResult : Option String)
    (fetchResult : Int → Int → Option GoogleEventsResponse)
    (truncDT parseD : String → String) (oracle : Nat → EnrichResult)
    (timeMin timeMax : Option Int) (st : SyncState) : Bool × SyncState :=
  match profile with
  | none => (false, st)
  | some p =>
    if !jsTruthyStr p.googleAccessToken then (false, st)
    else
      let needRefresh :=
        match p.googleTokenExpires with
        | some e => decide (e < now)
        | none => false
      if needRefresh && !jsTruthyStr refreshResult then (false, st)
      else
        let usedTimeMin := timeMin.getD now
        let usedTimeMax := timeMax.getD (now + 30 * 24 * 60 * 60 * 1000)
        match fetchResult usedTimeMin usedTimeMax with
        | none => (false, st)
        | some resp =>
          match resp.items with
          | none => (false, st)
          | some items =>
            (true, items.foldl (processItem userId truncDT parseD oracle) st)

/-! ## Concrete instances used by witnesses and counterexamples -/

/-- A candidate with no fields at all. -/
def emptyCand : GPTSubEvent :=
  { startTime := none, endTime := none, title := none, speaker := none
    speakerPosition := none, speakerCompany := none, location := none
    eventId := none }

/-- Candidate "Keynote" by Ada at 9am–10am. -/
def candKeynote : GPTSubEvent :=
  { emptyCand with title := some "Keynote", speaker := some "Ada"
                   startTime := some "9am", endTime := some "10am" }

/-- Candidate "Workshop" by Ada at 9am–10am in Hall B: same speaker and time
tokens as `candKeynote`, different title and location. -/
def candWorkshop : GPTSubEvent :=
  { emptyCand with title := some "Workshop", speaker := some "Ada"
                   startTime := some "9am", endTime := some "10am"
                   location := some "Hall B" }

/-- A candidate whose speaker is present but the empty string; its three
fingerprint fields all normalise to `""` although it lacks none of them. -/
def candBlankSpeaker : GPTSubEvent :=
  { emptyCand with speaker := some "", title := some "A" }

/-- A candidate lacking speaker and both time tokens. -/
def candAllNone : GPTSubEvent :=
  { emptyCand with title := some "B" }

/-- Timeline item 9:00–10:00 (instants in minutes; any order-embedding of
`Date` works). -/
def itemNine : SubEventWithParent :=
  { blankItem with id := "i1", start := some 540, «end» := some 600 }

/-- Timeline item 9:30–11:00. -/
def itemNineThirty : SubEventWithParent :=
  { blankItem with id := "i2", start := some 570, «end» := some 660 }

/-- Timeline item 11:00–12:00. -/
def itemEleven : SubEventWithParent :=
  { blankItem with id := "i3", start := some 660, «end» := some 720 }

/-- Timeline item with no start instant. -/
def itemNoStart : SubEventWithParent :=
  { blankItem with id := "n" }

/-- Timeline item starting at instant 0. -/
def itemStartZero : SubEventWithParent :=
  { blankItem with id := "s", start := some 0 }

/-- A Google calendar item carrying an external link in its description. -/
def sampleItem : GoogleItem :=
  { id := some "g1", summary := some "Conf"
    description := some "info at https://conf.example/page here"
    location := none, start := none }

/-- An enrichment oracle whose every invocation reports failure and performs
no location update. -/
def constOracle : Nat → EnrichResult :=
  fun _ => { outcome := .failure "scrape failed", locUpdate := none }

/-- The empty events table. -/
def emptyState : SyncState :=
  { rows := [], nextId := 0, enrichLog := [] }

/-- A profile with a valid access token and no recorded expiry. -/
def sampleProfile : Profile :=
  { googleAccessToken := some "tok", googleRefreshToken := none
    googleTokenExpires := none }

/-- A provider returning a single-item window for every query. -/
def sampleFetch : Int → Int → Option GoogleEventsResponse :=
  fun _ _ => some { items := some [sampleItem] }

/-! ## Lemmas: chunker -/

/-- With positive `maxLen` and enough fuel, the `chunkText` loop terminates
and produces chunks that concatenate back to the input, all of length
`maxLen` except possibly the last, which is no longer than `maxLen`. -/
theorem chunkTextGo_spec (maxLen : Nat) (hpos : 0 < maxLen) :
    ∀ fuel text, text.length ≤ fuel →
      ∃ cs, chunkTextGo maxLen fuel text = some cs ∧ cs.join = text ∧
        (∀ c ∈ cs.dropLast, c.length = maxLen) ∧ (∀ c ∈ cs, c.length ≤ maxLen) := by
  intro fuel
  induction fuel with
  | zero =>
    intro text hlen
    cases text with
    | nil => exact ⟨[], rfl, rfl, by simp, by simp⟩
    | cons c cs => simp at hlen
  | succ fuel ih =>
    intro text hlen
    cases text with
    | nil => exact ⟨[], rfl, rfl, by simp, by simp⟩
    | cons c cs =>
      have hdrop : ((c :: cs).drop maxLen).length ≤ fuel := by
        simp only [List.length_drop, List.length_cons]
        simp only [List.length_cons] at hlen
        omega
      obtain ⟨rest, hrest, hjoin, hfull, hle⟩ := ih ((c :: cs).drop maxLen) hdrop
      refine ⟨(c :: cs).take maxLen :: rest, ?_, ?_, ?_, ?_⟩
      · simp only [chunkTextGo, hrest, Option.map_some']
      · simp only [List.join_cons, hjoin, List.take_append_drop]
      · intro ch hch
        rcases rest with _ | ⟨r, rs⟩
        · simp at hch
        · rw [List.dropLast_cons_of_ne_nil (by simp)] at hch
          rcases List.mem_cons.mp hch with h | h
          · subst h
            have hne : (c :: cs).drop maxLen ≠ [] := by
              intro hnil
              rw [hnil] at hrest
              simp [chunkTextGo] at hrest
            have hlong : maxLen ≤ (c :: cs).length := by
              by_contra hcon
              exact hne (List.drop_eq_nil_of_le (le_of_not_le hcon))
            simp only [List.length_cons] at hlong
            simp only [List.length_take, List.length_cons]
            omega
          · exact hfull ch h
      · intro ch hch
        rcases List.mem_cons.mp hch with h | h
        · subst h
          simp [List.length_take]
        · exact hle ch h

/-- C2: for every string `S` and positive `N`, `chunkText S N` terminates and
its chunks concatenate back to `S` in order (hence they are consecutive,
non-overlapping substrings); every chunk except possibly the last has length
exactly `N`, and every chunk (in particular the last) has length `≤ N`. -/
theorem chunkText_roundTrip (text : List Char) (maxLen : Nat) (hpos : 0 < maxLen) :
    ∃ cs, chunkText text maxLen = some cs ∧ cs.join = text ∧
      (∀ c ∈ cs.dropLast, c.length = maxLen) ∧ (∀ c ∈ cs, c.length ≤ maxLen) :=
  chunkTextGo_spec maxLen hpos text.length text le_rfl

/-- Concrete instantiation of `chunkText_roundTrip` at `S = "hello world"`,
`N = 4`. -/
theorem chunkText_roundTrip_witness :
    0 < 4 ∧
      ∃ cs, chunkText "hello world".toList 4 = some cs ∧
        cs.join = "hello world".toList ∧
        (∀ c ∈ cs.dropLast, c.length = 4) ∧ (∀ c ∈ cs, c.length ≤ 4) :=
  ⟨by decide, chunkText_roundTrip "hello world".toList 4 (by decide)⟩

/-! ## Lemmas: deduplication -/

/-- The dedup loop with a pre-seeded key set computes the first-occurrence
list restricted to fingerprints outside `seen`. -/
theorem dedupeAux_eq_filter_firstOccurrences :
    ∀ (l : List GPTSubEvent) (seen : List String),
      dedupeAux seen l =
        (firstOccurrences l).filter (fun se => decide (fingerprint se ∉ seen)) := by
  intro l
  induction l with
  | nil => intro seen; rfl
  | cons se rest ih =>
    intro seen
    by_cases h : fingerprint se ∈ seen
    · have h1 : dedupeAux seen (se :: rest) = dedupeAux seen rest := by
        rw [dedupeAux, if_pos h]
      have h2 : (firstOccurrences (se :: rest)).filter
            (fun x => decide (fingerprint x ∉ seen)) =
          ((firstOccurrences rest).filter
            (fun x => fingerprint x != fingerprint se)).filter
            (fun x => decide (fingerprint x ∉ seen)) := by
        rw [firstOccurrences, List.filter_cons, if_neg (by simpa using h)]
      rw [h1, h2, ih seen, List.filter_filter]
      refine List.filter_congr ?_
      intro x _
      by_cases hx : fingerprint x ∈ seen
      · simp [hx]
      · have hne : fingerprint x ≠ fingerprint se := by
          intro he; exact hx (he ▸ h)
        simp [hx, hne]
    · have h1 : dedupeAux seen (se :: rest) =
          se :: dedupeAux (fingerprint se :: seen) rest := by
        rw [dedupeAux, if_neg h]
      have h2 : (firstOccurrences (se :: rest)).filter
            (fun x => decide (fingerprint x ∉ seen)) =
          se :: ((firstOccurrences rest).filter
            (fun x => fingerprint x != fingerprint se)).filter
            (fun x => decide (fingerprint x ∉ seen)) := by
        rw [firstOccurrences, List.filter_cons, if_pos (by simpa using h)]
      rw [h1, h2, ih (fingerprint se :: seen), List.filter_filter]
      congr 1
      refine List.filter_congr ?_
      intro x _
      by_cases hx : fingerprint x = fingerprint se
      · simp [hx]
      · by_cases hxs : fingerprint x ∈ seen <;> simp [hx, hxs]

/-- The dedup loop never lengthens the list. -/
theorem dedupeAux_length_le :
    ∀ (l : List GPTSubEvent) (seen : List String),
      (dedupeAux seen l).length ≤ l.length := by
  intro l
  induction l with
  | nil => intro seen; simp [dedupeAux]
  | cons se rest ih =>
    intro seen
    by_cases h : fingerprint se ∈ seen
    · simp only [dedupeAux, if_pos h]
      exact le_trans (ih seen) (by simp)
    · simp only [dedupeAux, if_neg h, List.length_cons]
      exact Nat.succ_le_succ (ih _)

/-- Fingerprints of the dedup output are distinct and avoid the seen set. -/
theorem dedupeAux_nodup :
    ∀ (l : List GPTSubEvent) (seen : List String),
      ((dedupeAux seen l).map fingerprint).Nodup ∧
        ∀ k ∈ seen, k ∉ (dedupeAux seen l).map fingerprint := by
  intro l
  induction l with
  | nil => intro seen; exact ⟨List.nodup_nil, by simp [dedupeAux]⟩
  | cons se rest ih =>
    intro seen
    by_cases h : fingerprint se ∈ seen
    · simpa only [dedupeAux, if_pos h] using ih seen
    · obtain ⟨hnd, hdisj⟩ := ih (fingerprint se :: seen)
      simp only [dedupeAux, if_neg h, List.map_cons]
      constructor
      · exact List.nodup_cons.mpr ⟨hdisj _ (List.mem_cons_self _ _), hnd⟩
      · intro k hk
        simp only [List.mem_cons]
        rintro (rfl | hmem)
        · exact h hk
        · exact hdisj k (List.mem_cons_of_mem _ hk) hmem

/-- On a list whose fingerprints are already distinct and disjoint from
`seen`, the dedup loop is the identity. -/
theorem dedupeAux_eq_self :
    ∀ (l : List GPTSubEvent) (seen : List String),
      ((l.map fingerprint).Nodup) →
      (∀ k ∈ seen, k ∉ l.map fingerprint) →
      dedupeAux seen l = l := by
  intro l
  induction l with
  | nil => intro seen _ _; rfl
  | cons se rest ih =>
    intro seen hnd hdisj
    have hse : fingerprint se ∉ seen := by
      intro hmem
      exact hdisj _ hmem (by simp)
    simp only [List.map_cons, List.nodup_cons] at hnd
    rw [dedupeAux, if_neg hse]
    congr 1
    refine ih _ hnd.2 ?_
    intro k hk
    rcases List.mem_cons.mp hk with rfl | hks
    · exact hnd.1
    · intro hmem
      exact hdisj k hks (List.mem_cons_of_mem _ hmem)

/-- Candidates lacking speaker and both time tokens fingerprint to
`"||||"`. -/
theorem fingerprint_of_lacksAllThree (se : GPTSubEvent)
    (h : lacksAllThree se = true) : fingerprint se = "||||" := by
  simp only [lacksAllThree, Bool.and_eq_true, Option.isNone_iff_eq_none] at h
  obtain ⟨⟨hs, hst⟩, he⟩ := h
  simp only [fingerprint, hs, hst, he]
  decide

/-- Once the blank key `"||||"` has been seen, no candidate lacking all
three fingerprint fields survives the dedup loop. -/
theorem dedupeAux_filter_lacks_nil :
    ∀ (l : List GPTSubEvent) (seen : List String), "||||" ∈ seen →
      (dedupeAux seen l).filter lacksAllThree = [] := by
  intro l
  induction l with
  | nil => intro seen _; rfl
  | cons se rest ih =>
    intro seen hseen
    by_cases h : fingerprint se ∈ seen
    · simp only [dedupeAux, if_pos h]
      exact ih seen hseen
    · have hlacks : lacksAllThree se = false := by
        by_contra hcon
        have := fingerprint_of_lacksAllThree se (by simpa using hcon)
        exact h (this ▸ hseen)
      rw [show dedupeAux seen (se :: rest) =
            se :: dedupeAux (fingerprint se :: seen) rest by
          rw [dedupeAux, if_neg h]]
      rw [List.filter_cons, if_neg (by simp [hlacks])]
      exact ih _ (List.mem_cons_of_mem _ hseen)

/-- When every candidate fingerprinting to `"||||"` in fact lacks all three
fields, the lacking candidates surviving the dedup loop are exactly the
first of them. -/
theorem dedupeAux_filter_lacks :
    ∀ (l : List GPTSubEvent) (seen : List String), "||||" ∉ seen →
      (∀ se ∈ l, fingerprint se = "||||" → lacksAllThree se = true) →
      (dedupeAux seen l).filter lacksAllThree =
        (l.filter lacksAllThree).take 1 := by
  intro l
  induction l with
  | nil => intro seen _ _; rfl
  | cons se rest ih =>
    intro seen hseen hall
    by_cases h : fingerprint se ∈ seen
    · have hlacks : lacksAllThree se = false := by
        by_contra hcon
        have := fingerprint_of_lacksAllThree se (by simpa using hcon)
        exact hseen (this ▸ h)
      simp only [dedupeAux, if_pos h, List.filter_cons, hlacks]
      rw [if_neg (by simp [hlacks])]
      exact ih seen hseen (fun x hx => hall x (List.mem_cons_of_mem _ hx))
    · by_cases hl : lacksAllThree se = true
      · have hfp : fingerprint se = "||||" := fingerprint_of_lacksAllThree se hl
        rw [show dedupeAux seen (se :: rest) =
              se :: dedupeAux (fingerprint se :: seen) rest by
            rw [dedupeAux, if_neg h]]
        rw [List.filter_cons, if_pos (by simp [hl])]
        rw [dedupeAux_filter_lacks_nil rest (fingerprint se :: seen) (by simp [hfp])]
        rw [List.filter_cons, if_pos (by simp [hl])]
        simp
      · have hne : fingerprint se ≠ "||||" := by
          intro he
          exact hl (hall se (by simp) he)
        rw [show dedupeAux seen (se :: rest) =
              se :: dedupeAux (fingerprint se :: seen) rest by
            rw [dedupeAux, if_neg h]]
        rw [List.filter_cons, if_neg (by simp [hl])]
        rw [List.filter_cons, if_neg (by simp [hl])]
        refine ih (fingerprint se :: seen) ?_ ?_
        · simp only [List.mem_cons, not_or]
          exact ⟨fun hc => hne hc.symm, hseen⟩
        · exact fun x hx => hall x (List.mem_cons_of_mem _ hx)

/-- A list with distinct fingerprints holds at most one candidate with any
given fingerprint. -/
theorem filter_fingerprint_le_one :
    ∀ (l : List GPTSubEvent) (k : String), ((l.map fingerprint).Nodup) →
      (l.filter (fun se => fingerprint se == k)).length ≤ 1 := by
  intro l
  induction l with
  | nil => intro k _; simp
  | cons se rest ih =>
    intro k hnd
    simp only [List.map_cons, List.nodup_cons] at hnd
    by_cases h : fingerprint se = k
    · have hrest : rest.filter (fun x => fingerprint x == k) = [] := by
        refine List.filter_eq_nil.mpr ?_
        intro x hx
        simp only [beq_iff_eq]
        intro hc
        exact hnd.1 (by rw [h, ← hc]; exact List.mem_map_of_mem _ hx)
      simp [List.filter_cons, h, hrest]
    · simp only [List.filter_cons]
      rw [if_neg (by simp [h])]
      exact ih k hnd.2

/-! ## Lemmas: persisted fields -/

/-- The pattern `x?.trim() || null` never stores an empty string. -/
theorem jsTrimOrNull_ne_empty (o : Option String) (s : String)
    (h : jsTrimOrNull o = some s) : s ≠ "" := by
  cases o with
  | none => simp [jsTrimOrNull] at h
  | some t =>
    simp only [jsTrimOrNull] at h
    by_cases ht : jsTrim t = ""
    · rw [if_pos ht] at h
      cases h
    · rw [if_neg ht] at h
      obtain rfl : jsTrim t = s := Option.some_inj.mp h
      exact ht

/-- A `" -- "`-joined location is never the empty string. -/
theorem append_sep_ne_empty (p c : String) : p ++ " -- " ++ c ≠ "" := by
  intro h
  have hlen := congrArg String.length h
  simp only [String.length_append] at hlen
  have h3 : (" -- ").length = 4 := by decide
  have h0 : ("" : String).length = 0 := by decide
  omega

/-- The location stored by the insertion loop agrees with the spec's
three-way merge rule on the parent row's raw location and the candidate's
raw location. -/
theorem buildSubEventData_location (eid : String) (rowLoc : Option String)
    (sub : GPTSubEvent) :
    (buildSubEventData eid (jsTrimOrEmpty rowLoc) sub).location =
      specMergedLocation rowLoc sub.location := by
  have hp : jsTrimOrEmpty rowLoc = jsTrim (rowLoc.getD "") := by
    cases rowLoc <;> simp [jsTrimOrEmpty, Option.getD] <;> decide
  have hc : jsTrimOrEmpty sub.location = jsTrim (sub.location.getD "") := by
    cases hs : sub.location <;> simp [jsTrimOrEmpty, hs, Option.getD] <;> decide
  simp only [buildSubEventData, specMergedLocation, hp, hc]
  by_cases h1 : jsTrim (rowLoc.getD "") = "" <;>
    by_cases h2 : jsTrim (sub.location.getD "") = "" <;>
    simp [h1, h2, append_sep_ne_empty]

/-! ## Claim theorems: deduplication and persistence -/

/-- C3: `deduplicateSubEvents` keeps exactly the first occurrence of each
fingerprint — the lower-cased, trimmed `(speaker, startTime, endTime)`
composite key — and drops all later candidates with the same fingerprint;
in particular, two candidates sharing `speaker` and both time tokens
(however their titles, locations or other fields differ) collapse to the
first of them. -/
theorem deduplicateSubEvents_keeps_first :
    (∀ l, deduplicateSubEvents l = firstOccurrences l) ∧
    ∀ a b : GPTSubEvent, a.speaker = b.speaker → a.startTime = b.startTime →
      a.endTime = b.endTime → deduplicateSubEvents [a, b] = [a] := by
  constructor
  · intro l
    rw [deduplicateSubEvents, dedupeAux_eq_filter_firstOccurrences]
    simp
  · intro a b h1 h2 h3
    have hfp : fingerprint b = fingerprint a := by
      simp [fingerprint, h1, h2, h3]
    simp [deduplicateSubEvents, dedupeAux, hfp]

/-- Concrete instantiation of `deduplicateSubEvents_keeps_first`:
"Keynote" and "Workshop" share speaker Ada and the 9am–10am tokens, so only
"Keynote" survives. -/
theorem deduplicateSubEvents_keeps_first_witness :
    deduplicateSubEvents [candKeynote, candWorkshop] = [candKeynote] :=
  deduplicateSubEvents_keeps_first.2 candKeynote candWorkshop rfl rfl rfl

/-- C4: deduplication is idempotent, never lengthens its input, and the
fingerprints of its output are pairwise distinct. -/
theorem deduplicateSubEvents_idempotent :
    ∀ l, deduplicateSubEvents (deduplicateSubEvents l) = deduplicateSubEvents l ∧
      (deduplicateSubEvents l).length ≤ l.length ∧
      ((deduplicateSubEvents l).map fingerprint).Nodup := by
  intro l
  obtain ⟨hnd, -⟩ := dedupeAux_nodup l []
  exact ⟨dedupeAux_eq_self _ [] hnd (by simp), dedupeAux_length_le l [], hnd⟩

/-- Counterexample to C10 as stated: `candBlankSpeaker` carries a present
but empty speaker, so it also fingerprints to `"||||"`; placed before the
lacking candidate `candAllNone` it wins the fingerprint slot, and the
candidates lacking all three fields collapse to nothing rather than to the
first of them. -/
theorem dedup_blank_fingerprint_counterexample :
    lacksAllThree candAllNone = true ∧
    lacksAllThree candBlankSpeaker = false ∧
    deduplicateSubEvents [candBlankSpeaker, candAllNone] = [candBlankSpeaker] ∧
    candAllNone ∉ deduplicateSubEvents [candBlankSpeaker, candAllNone] ∧
    (deduplicateSubEvents [candBlankSpeaker, candAllNone]).filter lacksAllThree
      = [] := by
  decide

/-- C10 (amended): absent speaker/startTime/endTime are coerced to `""`
before fingerprinting, so every candidate lacking all three has fingerprint
`"||||"`; at most one candidate with that fingerprint survives, and when
every candidate fingerprinting to `"||||"` actually lacks all three fields
(no present-but-blank speaker or times elsewhere in the list), the lacking
candidates collapse to exactly the first of them. -/
theorem dedup_blank_key_collapse :
    (∀ se : GPTSubEvent, se.speaker = none → se.startTime = none →
      se.endTime = none → fingerprint se = "||||") ∧
    (∀ l, (∀ se ∈ l, fingerprint se = "||||" → lacksAllThree se = true) →
      (deduplicateSubEvents l).filter lacksAllThree =
        (l.filter lacksAllThree).take 1) ∧
    (∀ l, ((deduplicateSubEvents l).filter
      (fun se => fingerprint se == "||||")).length ≤ 1) := by
  refine ⟨?_, ?_, ?_⟩
  · intro se hs hst he
    exact fingerprint_of_lacksAllThree se (by simp [lacksAllThree, hs, hst, he])
  · intro l hall
    exact dedupeAux_filter_lacks l [] (by simp) hall
  · intro l
    exact filter_fingerprint_le_one _ _ (dedupeAux_nodup l []).1

/-- Concrete instantiation of `dedup_blank_key_collapse`: two candidates
lacking all three fields collapse to the first. -/
theorem dedup_blank_key_collapse_witness :
    fingerprint emptyCand = "||||" ∧
    (deduplicateSubEvents [candAllNone, emptyCand]).filter lacksAllThree =
      ([candAllNone, emptyCand].filter lacksAllThree).take 1 :=
  ⟨dedup_blank_key_collapse.1 emptyCand rfl rfl rfl,
    dedup_blank_key_collapse.2.1 [candAllNone, emptyCand] (by decide)⟩

/-- C5: every row persisted by `handleParsedSchedule` stores the three-way
merged location — parent and child both present (non-empty after trimming)
⇒ `"{parent} -- {child}"`, exactly one present ⇒ that one, neither ⇒ `null`;
and parent "Room A" with child "Booth 3" concretely yields
`"Room A -- Booth 3"`. -/
theorem handleParsedSchedule_location_merge :
    (∀ eventId rowLoc parsed ins,
      ins ∈ handleParsedScheduleInserts eventId rowLoc parsed →
      ∃ sub ∈ parsed.subEvents.getD [],
        ins.location = specMergedLocation rowLoc sub.location) ∧
    (handleParsedScheduleInserts "e" (some "Room A")
        { location := none,
          subEvents := some [{ emptyCand with location := some "Booth 3" }] }).map
      (fun i => i.location) = [some "Room A -- Booth 3"] := by
  constructor
  · intro eventId rowLoc parsed ins hins
    simp only [handleParsedScheduleInserts, List.mem_map] at hins
    obtain ⟨sub, hsub, rfl⟩ := hins
    exact ⟨sub, hsub, buildSubEventData_location eventId rowLoc sub⟩
  · decide

/-- Concrete instantiation of `handleParsedSchedule_location_merge`. -/
theorem handleParsedSchedule_location_merge_witness :
    ∃ sub ∈ (GPTParsedSchedule.mk none
        (some [{ emptyCand with location := some "Booth 3" }])).subEvents.getD [],
      (buildSubEventData "e" (jsTrimOrEmpty (some "Room A"))
        { emptyCand with location := some "Booth 3" }).location =
        specMergedLocation (some "Room A") sub.location :=
  handleParsedSchedule_location_merge.1 "e" (some "Room A")
    (GPTParsedSchedule.mk none (some [{ emptyCand with location := some "Booth 3" }]))
    (buildSubEventData "e" (jsTrimOrEmpty (some "Room A"))
      { emptyCand with location := some "Booth 3" })
    (by simp [handleParsedScheduleInserts])

/-- C9: the insertion loop defaults every field missing or blank in the LLM
output — `null` for the times, speaker fields and location, the fixed
`"Untitled Session"` name for a missing title — and never hands the
persistence layer a `some ""`-shaped value for any field. -/
theorem handleParsedSchedule_field_defaults :
    ∀ eventId parentLoc sub,
      ((buildSubEventData eventId parentLoc sub).eventId = eventId) ∧
      (sub.startTime = none → (buildSubEventData eventId parentLoc sub).startTime = none) ∧
      (sub.endTime = none → (buildSubEventData eventId parentLoc sub).endTime = none) ∧
      (sub.title = none →
        (buildSubEventData eventId parentLoc sub).subEventName = "Untitled Session") ∧
      (sub.speaker = none → (buildSubEventData eventId parentLoc sub).speaker = none) ∧
      (sub.speakerPosition = none →
        (buildSubEventData eventId parentLoc sub).speakerPosition = none) ∧
      (sub.speakerCompany = none →
        (buildSubEventData eventId parentLoc sub).speakerCompany = none) ∧
      (sub.location = none → parentLoc = "" →
        (buildSubEventData eventId parentLoc sub).location = none) ∧
      ((buildSubEventData eventId parentLoc sub).subEventName ≠ "") ∧
      (∀ s, (buildSubEventData eventId parentLoc sub).startTime = some s → s ≠ "") ∧
      (∀ s, (buildSubEventData eventId parentLoc sub).endTime = some s → s ≠ "") ∧
      (∀ s, (buildSubEventData eventId parentLoc sub).speaker = some s → s ≠ "") ∧
      (∀ s, (buildSubEventData eventId parentLoc sub).speakerPosition = some s → s ≠ "") ∧
      (∀ s, (buildSubEventData eventId parentLoc sub).speakerCompany = some s → s ≠ "") ∧
      (∀ s, (buildSubEventData eventId parentLoc sub).location = some s → s ≠ "") := by
  intro eventId parentLoc sub
  refine ⟨rfl, ?_, ?_, ?_, ?_, ?_, ?_, ?_, ?_, ?_, ?_, ?_, ?_, ?_, ?_⟩
  · intro h; simp [buildSubEventData, jsTrimOrNull, h]
  · intro h; simp [buildSubEventData, jsTrimOrNull, h]
  · intro h; simp [buildSubEventData, jsTrimOrDefault, h]
  · intro h; simp [buildSubEventData, jsTrimOrNull, h]
  · intro h; simp [buildSubEventData, jsTrimOrNull, h]
  · intro h; simp [buildSubEventData, jsTrimOrNull, h]
  · intro h hp
    simp [buildSubEventData, jsTrimOrEmpty, h, hp]
  · simp only [buildSubEventData, jsTrimOrDefault]
    cases sub.title with
    | none => decide
    | some t =>
      show (if jsTrim t = "" then "Untitled Session" else jsTrim t) ≠ ""
      by_cases ht : jsTrim t = ""
      · rw [if_pos ht]
        decide
      · rw [if_neg ht]
        exact ht
  · intro s hs
    exact jsTrimOrNull_ne_empty _ _ hs
  · intro s hs
    exact jsTrimOrNull_ne_empty _ _ hs
  · intro s hs
    exact jsTrimOrNull_ne_empty _ _ hs
  · intro s hs
    exact jsTrimOrNull_ne_empty _ _ hs
  · intro s hs
    exact jsTrimOrNull_ne_empty _ _ hs
  · intro s hs
    simp only [buildSubEventData] at hs
    by_cases hf : (if parentLoc ≠ "" ∧ jsTrimOrEmpty sub.location ≠ "" then
        parentLoc ++ " -- " ++ jsTrimOrEmpty sub.location
      else if parentLoc ≠ "" ∧ jsTrimOrEmpty sub.location = "" then parentLoc
      else if parentLoc = "" ∧ jsTrimOrEmpty sub.location ≠ "" then
        jsTrimOrEmpty sub.location
      else "") = ""
    · rw [if_pos hf] at hs
      cases hs
    · rw [if_neg hf] at hs
      obtain rfl := Option.some_inj.mp hs
      exact hf

/-- Concrete instantiation of `handleParsedSchedule_field_defaults` on a
candidate with every field missing. -/
theorem handleParsedSchedule_field_defaults_witness :
    (buildSubEventData "e" "" emptyCand).startTime = none ∧
    (buildSubEventData "e" "" emptyCand).subEventName = "Untitled Session" ∧
    (buildSubEventData "e" "" emptyCand).location = none :=
  ⟨(handleParsedSchedule_field_defaults "e" "" emptyCand).2.1 rfl,
    (handleParsedSchedule_field_defaults "e" "" emptyCand).2.2.2.1 rfl,
    (handleParsedSchedule_field_defaults "e" "" emptyCand).2.2.2.2.2.2.2.1 rfl rfl⟩

/-! ## Lemmas: timeline sort and grouping -/

/-- The sort comparator is transitive. -/
theorem timelineLe_trans : ∀ a b c : SubEventWithParent,
    timelineLe a b → timelineLe b c → timelineLe a c := by
  intro a b c hab hbc
  unfold timelineLe at *
  cases ha : a.start <;> cases hb : b.start <;> cases hc : c.start <;>
    simp_all <;> omega

/-- The sort comparator is total. -/
theorem timelineLe_total : ∀ a b : SubEventWithParent,
    timelineLe a b || timelineLe b a := by
  intro a b
  unfold timelineLe
  cases a.start <;> cases b.start <;> simp <;> omega

/-- Stability of the timeline sort on a class of mutually tied items:
filtering the sorted list by a predicate all of whose members tie leaves the
original input order. -/
theorem sortByStart_filter_tied (l : List SubEventWithParent)
    (p : SubEventWithParent → Bool)
    (hp : ∀ a b, p a = true → p b = true → timelineLe a b = true) :
    (sortByStart l).filter p = l.filter p := by
  have hpw : (l.filter p).Pairwise (fun a b => timelineLe a b) := by
    refine List.pairwise_of_forall_mem_list ?_
    intro a ha b hb
    exact hp a b (List.mem_filter.mp ha).2 (List.mem_filter.mp hb).2
  have hsub : List.Sublist (l.filter p) (sortByStart l) :=
    List.sublist_mergeSort timelineLe_trans timelineLe_total hpw
      (List.filter_sublist l)
  have hsub2 : List.Sublist (l.filter p) ((sortByStart l).filter p) := by
    have h := hsub.filter p
    rwa [List.filter_filter, show (fun a => p a && p a) = p from funext
      (fun a => Bool.and_self (p a))] at h
  have hperm : List.Perm ((sortByStart l).filter p) (l.filter p) :=
    (List.mergeSort_perm l timelineLe).filter p
  exact (hsub2.eq_of_length hperm.length_eq.symm).symm

/-! ## Claim theorems: timeline -/

/-- C6: with a non-empty current group, the grouping loop joins the next
item exactly when both its start instant and the running group end are
defined and the start is ≤ the running end (touching intervals overlap),
extending the running end to the later of itself and the item's effective
end (`end ?? start`); in every other case the item opens a new group.
Concretely, 9:00–10:00, 9:30–11:00 and 11:00–12:00 collapse into the single
group `[[i1, i2, i3]]`. -/
theorem groupOverlapping_join_iff :
    (∀ sub rest result cg (s e : Int), cg ≠ [] → sub.start = some s → s ≤ e →
      groupLoop (sub :: rest) result cg (some e) =
        groupLoop rest result (cg ++ [sub])
          (some (max e (sub.«end».getD s)))) ∧
    (∀ sub rest result cg (s e : Int), cg ≠ [] → sub.start = some s → e < s →
      groupLoop (sub :: rest) result cg (some e) =
        groupLoop rest (result ++ [cg]) [sub] (effectiveEnd sub)) ∧
    (∀ sub rest result cg cge, cg ≠ [] → (sub.start = none ∨ cge = none) →
      groupLoop (sub :: rest) result cg cge =
        groupLoop rest (result ++ [cg]) [sub] (effectiveEnd sub)) ∧
    groupOverlapping [itemNine, itemNineThirty, itemEleven] =
      [[itemNine, itemNineThirty, itemEleven]] := by
  refine ⟨?_, ?_, ?_, ?_⟩
  · intro sub rest result cg s e hcg hs hse
    obtain ⟨a, as, rfl⟩ := List.exists_cons_of_ne_nil hcg
    simp only [groupLoop, List.isEmpty_cons, overlapsRunning, hs, hse,
      decide_eq_true_eq, if_true, if_false, Bool.false_eq_true]
    congr 1
    cases hend : sub.«end» with
    | none =>
      simp only [effectiveEnd, hend, hs, updateGroupEnd, Option.getD_none]
      rw [if_neg (not_lt.mpr hse), max_eq_left hse]
    | some x =>
      simp only [effectiveEnd, hend, updateGroupEnd, Option.getD_some]
      by_cases hex : e < x
      · rw [if_pos hex, max_eq_right (le_of_lt hex)]
      · rw [if_neg hex, max_eq_left (not_lt.mp hex)]
  · intro sub rest result cg s e hcg hs hse
    obtain ⟨a, as, rfl⟩ := List.exists_cons_of_ne_nil hcg
    have hov : overlapsRunning sub.start (some e) = false := by
      rw [hs]
      simp only [overlapsRunning, decide_eq_false_iff_not]
      omega
    simp only [groupLoop, List.isEmpty_cons, Bool.false_eq_true, if_false, hov]
  · intro sub rest result cg cge hcg hor
    obtain ⟨a, as, rfl⟩ := List.exists_cons_of_ne_nil hcg
    have hov : overlapsRunning sub.start cge = false := by
      rcases hor with h | h
      · rw [h]
        cases cge <;> rfl
      · rw [h]
        cases sub.start <;> rfl
    simp only [groupLoop, List.isEmpty_cons, Bool.false_eq_true, if_false, hov]
  · simp [groupOverlapping, sortByStart, List.mergeSort, List.splitInTwo,
      List.splitAt, List.splitAt.go, List.merge, groupLoop, timelineLe,
      overlapsRunning, updateGroupEnd, effectiveEnd, itemNine, itemNineThirty,
      itemEleven, blankItem]

/-- Concrete instantiation of `groupOverlapping_join_iff`: 9:30 starts
before the running end 10:00, so it joins the group of 9:00–10:00 and the
running end extends to 11:00. -/
theorem groupOverlapping_join_iff_witness :
    groupLoop [itemNineThirty] [] [itemNine] (some 600) =
      groupLoop [] [] ([itemNine] ++ [itemNineThirty])
        (some (max 600 (itemNineThirty.«end».getD 570))) :=
  groupOverlapping_join_iff.1 itemNineThirty [] [] [itemNine] 570 600
    (by simp) rfl (by decide)

/-- Counterexample to C7 as stated: the comparator returns `-1` when only
its first argument has a start (`a.start && !b.start`), so items WITH a
start instant sort first and an item lacking one comes last, not first. -/
theorem sortByStart_noStart_last_counterexample :
    sortByStart [itemNoStart, itemStartZero] = [itemStartZero, itemNoStart] ∧
    sortByStart [itemNoStart, itemStartZero] ≠ [itemNoStart, itemStartZero] := by
  have h1 : sortByStart [itemNoStart, itemStartZero] =
      [itemStartZero, itemNoStart] := by
    simp [sortByStart, List.mergeSort, List.splitInTwo, List.splitAt,
      List.splitAt.go, List.merge, timelineLe, itemNoStart, itemStartZero,
      blankItem]
  refine ⟨h1, ?_⟩
  rw [h1]
  decide

/-- C7 (amended): before grouping, `groupOverlapping` stably sorts the date
bucket by start instant with the items lacking a start instant sorted LAST
(not first): the output is a permutation of the input, pairwise ordered so
that a started item never follows an unstarted one and starts are
non-decreasing, and both every tie class of equal starts and the class of
unstarted items keep their original input order. -/
theorem sortByStart_spec :
    ∀ l : List SubEventWithParent,
      (sortByStart l).Perm l ∧
      List.Pairwise (fun a b => (a.start = none → b.start = none) ∧
        ∀ sa sb : Int, a.start = some sa → b.start = some sb → sa ≤ sb)
        (sortByStart l) ∧
      ((sortByStart l).filter (fun x => x.start.isNone) =
        l.filter (fun x => x.start.isNone)) ∧
      ∀ t : Int, (sortByStart l).filter (fun x => x.start == some t) =
        l.filter (fun x => x.start == some t) := by
  intro l
  refine ⟨List.mergeSort_perm l timelineLe, ?_, ?_, ?_⟩
  · have hpw := List.sorted_mergeSort timelineLe_trans timelineLe_total l
    refine hpw.imp ?_
    intro a b h
    constructor
    · intro ha
      cases hb : b.start with
      | none => rfl
      | some sb =>
        rw [show timelineLe a b = false by unfold timelineLe; rw [ha, hb]] at h
        cases h
    · intro sa sb hsa hsb
      rw [show timelineLe a b = decide (sa ≤ sb) by
        unfold timelineLe; rw [hsa, hsb]] at h
      exact of_decide_eq_true h
  · refine sortByStart_filter_tied l _ ?_
    intro a b ha hb
    simp only [Option.isNone_iff_eq_none] at ha hb
    unfold timelineLe
    rw [ha, hb]
  · intro t
    refine sortByStart_filter_tied l _ ?_
    intro a b ha hb
    simp only [beq_iff_eq] at ha hb
    unfold timelineLe
    rw [ha, hb]
    simp

/-! ## Lemmas: calendar sync -/

/-- The reported outcome of an enrichment call never influences the
resulting state: the `try`/`catch` only logs. -/
theorem applyProcessExternalLink_eq (oracle : Nat → EnrichResult) (eventId : Nat)
    (st : SyncState) :
    applyProcessExternalLink oracle eventId st =
      { st with
        rows :=
          match (oracle eventId).locUpdate with
          | none => st.rows
          | some loc => st.rows.map (fun r =>
              if r.id == eventId then { r with location := some loc } else r)
        enrichLog := st.enrichLog ++ [eventId] } := by
  unfold applyProcessExternalLink
  cases (oracle eventId).outcome <;> rfl

/-- Every enrichment call appends exactly its event id to the log. -/
theorem applyProcessExternalLink_enrichLog (oracle : Nat → EnrichResult)
    (eventId : Nat) (st : SyncState) :
    (applyProcessExternalLink oracle eventId st).enrichLog =
      st.enrichLog ++ [eventId] := by
  rw [applyProcessExternalLink_eq]

/-- Lemma: `find?` commutes with a row transformation that preserves the searched
predicate. -/
theorem find?_map_of_pred_preserving (p : EventRow → Bool) (g : EventRow → EventRow)
    (hg : ∀ r, p (g r) = p r) :
    ∀ rows : List EventRow, (rows.map g).find? p = (rows.find? p).map g := by
  intro rows
  induction rows with
  | nil => rfl
  | cons r rs ih =>
    by_cases h : p r = true
    · rw [List.map_cons, List.find?_cons_of_pos (List.map g rs) ((hg r).trans h),
        List.find?_cons_of_pos rs h, Option.map_some']
    · rw [List.map_cons, List.find?_cons_of_neg _ (by simp [hg r, h]),
        List.find?_cons_of_neg _ (by simp [h]), ih]

/-- An enrichment call preserves the row found for any sync key, and in
particular its stored external link (it can only overwrite `location`). -/
theorem applyProcessExternalLink_find (oracle : Nat → EnrichResult)
    (eventId : Nat) (st : SyncState) (u i : String) (r : EventRow)
    (h : st.rows.find? (matchesKey u i) = some r) :
    ∃ r', (applyProcessExternalLink oracle eventId st).rows.find?
        (matchesKey u i) = some r' ∧ r'.externalLink = r.externalLink := by
  rw [applyProcessExternalLink_eq]
  cases hl : (oracle eventId).locUpdate with
  | none => exact ⟨r, by simpa [hl] using h, rfl⟩
  | some loc =>
    refine ⟨if r.id == eventId then { r with location := some loc } else r, ?_, ?_⟩
    · have hmap := find?_map_of_pred_preserving (matchesKey u i)
        (fun x => if x.id == eventId then { x with location := some loc } else x)
        (fun x => by by_cases hx : x.id == eventId <;> simp [hx, matchesKey])
        st.rows
      simp only [hl]
      rw [hmap, h, Option.map_some']
    · by_cases hx : r.id == eventId <;> simp [hx]

/-- Updating the found row by id rewrites exactly that row to the new
`eventData` columns, and the updated row is again the first match for the
sync key. -/
theorem find?_applyUpdate (d : EventData) (u i : String)
    (hu : d.userId = u) (hc : d.calendarEventId = some i) :
    ∀ rows : List EventRow, ∀ ex : EventRow,
      rows.find? (matchesKey u i) = some ex →
      (rows.map (fun r => r.id)).Nodup →
      (applyUpdate d ex.id rows).find? (matchesKey u i) =
        some { ex with userId := d.userId, eventTitle := d.eventTitle
                       calendarEventId := d.calendarEventId
                       startTime := d.startTime, location := d.location
                       externalLink := d.externalLink } := by
  intro rows
  induction rows with
  | nil => intro ex h; cases h
  | cons r rs ih =>
    intro ex hfind hnd
    simp only [List.map_cons, List.nodup_cons] at hnd
    by_cases h : matchesKey u i r = true
    · rw [List.find?_cons_of_pos rs h] at hfind
      obtain rfl : r = ex := Option.some_inj.mp hfind
      have hnew : matchesKey u i
          { r with userId := d.userId, eventTitle := d.eventTitle
                   calendarEventId := d.calendarEventId
                   startTime := d.startTime, location := d.location
                   externalLink := d.externalLink } = true := by
        simp [matchesKey, hu, hc]
      simp only [applyUpdate, List.map_cons, beq_self_eq_true, if_true]
      rw [List.find?_cons_of_pos _ hnew]
    · rw [List.find?_cons_of_neg rs h] at hfind
      have hmem : ex ∈ rs := List.mem_of_find?_eq_some hfind
      have hne : (r.id == ex.id) = false := by
        simp only [beq_eq_false_iff_ne, ne_eq]
        intro he
        exact hnd.1 (he ▸ List.mem_map_of_mem (fun x => x.id) hmem)
      rw [applyUpdate, List.map_cons, if_neg (by simp [hne])]
      rw [List.find?_cons_of_neg _ h]
      exact ih ex hfind hnd.2

/-- Appending a matching row to a table without a match makes it the first
match. -/
theorem find?_append_singleton (p : EventRow → Bool) (rows : List EventRow)
    (x : EventRow) (h : rows.find? p = none) (hx : p x = true) :
    (rows ++ [x]).find? p = some x := by
  rw [List.find?_append, h, Option.none_or, List.find?_cons_of_pos _ hx]

/-- After processing a non-skipped item, the events table holds, as first
match for that item's sync key, a row whose external link equals the link
just derived from the item. -/
theorem processItem_find_after (u : String) (tD pD : String → String)
    (oracle : Nat → EnrichResult) (st : SyncState) (item : GoogleItem)
    (hnd : (st.rows.map (fun r => r.id)).Nodup)
    (hid : jsTruthyStr item.id = true) (hsum : jsTruthyStr item.summary = true) :
    ∃ r', (processItem u tD pD oracle st item).rows.find?
        (matchesKey u (item.id.getD "")) = some r' ∧
      r'.externalLink = (buildEventData u tD pD item).externalLink := by
  have hskip : (!jsTruthyStr item.id || !jsTruthyStr item.summary) = false := by
    rw [hid, hsum]
    rfl
  obtain ⟨s, hs⟩ : ∃ s, item.id = some s := by
    cases h : item.id with
    | none => rw [h] at hid; cases hid
    | some s => exact ⟨s, rfl⟩
  have hc : (buildEventData u tD pD item).calendarEventId = some (item.id.getD "") := by
    simp [buildEventData, hs]
  simp only [processItem, hskip, Bool.false_eq_true, if_false]
  cases hfind : st.rows.find? (matchesKey u (item.id.getD "")) with
  | some ex =>
    simp only []
    have hupd := find?_applyUpdate (buildEventData u tD pD item)
      u (item.id.getD "") rfl hc st.rows ex hfind hnd
    by_cases hlink : ((buildEventData u tD pD item).externalLink.isSome &&
        (buildEventData u tD pD item).externalLink != ex.externalLink) = true
    · rw [if_pos hlink]
      obtain ⟨r', hr', hext⟩ := applyProcessExternalLink_find oracle ex.id
        { st with rows := applyUpdate (buildEventData u tD pD item) ex.id st.rows }
        u (item.id.getD "") _ hupd
      exact ⟨r', hr', hext⟩
    · rw [if_neg hlink]
      exact ⟨_, hupd, rfl⟩
  | none =>
    have happ := find?_append_singleton (matchesKey u (item.id.getD "")) st.rows
      { id := st.nextId, userId := (buildEventData u tD pD item).userId
        eventTitle := (buildEventData u tD pD item).eventTitle
        startTime := (buildEventData u tD pD item).startTime, endTime := none
        location := (buildEventData u tD pD item).location
        externalLink := (buildEventData u tD pD item).externalLink
        calendarEventId := (buildEventData u tD pD item).calendarEventId }
      hfind (by simp [matchesKey, buildEventData, hs])
    by_cases hlink : ((buildEventData u tD pD item).externalLink.isSome : Bool) = true
    · rw [if_pos hlink]
      obtain ⟨r', hr', hext⟩ := applyProcessExternalLink_find oracle st.nextId
        { rows := st.rows ++
            [{ id := st.nextId, userId := (buildEventData u tD pD item).userId
               eventTitle := (buildEventData u tD pD item).eventTitle
               startTime := (buildEventData u tD pD item).startTime, endTime := none
               location := (buildEventData u tD pD item).location
               externalLink := (buildEventData u tD pD item).externalLink
               calendarEventId := (buildEventData u tD pD item).calendarEventId }]
          nextId := st.nextId + 1, enrichLog := st.enrichLog }
        u (item.id.getD "") _ happ
      exact ⟨r', hr', hext⟩
    · rw [if_neg hlink]
      exact ⟨_, happ, rfl⟩

/-- When the stored row for the item's key already carries exactly the link
derived from the item, processing the item performs no enrichment. -/
theorem processItem_enrichLog_of_unchanged (u : String) (tD pD : String → String)
    (oracle : Nat → EnrichResult) (st : SyncState) (item : GoogleItem)
    (ex : EventRow)
    (hfind : st.rows.find? (matchesKey u (item.id.getD "")) = some ex)
    (hext : ex.externalLink = (buildEventData u tD pD item).externalLink) :
    (processItem u tD pD oracle st item).enrichLog = st.enrichLog := by
  cases hskip : (!jsTruthyStr item.id || !jsTruthyStr item.summary) with
  | true => simp [processItem, hskip]
  | false =>
    simp only [processItem, hskip, Bool.false_eq_true, if_false, hfind]
    have hlink : ((buildEventData u tD pD item).externalLink.isSome &&
        (buildEventData u tD pD item).externalLink != ex.externalLink) = false := by
      rw [hext, bne_self_eq_false, Bool.and_false]
    rw [if_neg (by simp [hlink])]

/-- One processed item adds at most one enrichment invocation to the log. -/
theorem processItem_enrichLog_le (u : String) (tD pD : String → String)
    (oracle : Nat → EnrichResult) (st : SyncState) (item : GoogleItem) :
    (processItem u tD pD oracle st item).enrichLog.length ≤
      st.enrichLog.length + 1 := by
  cases hskip : (!jsTruthyStr item.id || !jsTruthyStr item.summary) with
  | true => simp [processItem, hskip]
  | false =>
    cases hfind : st.rows.find? (matchesKey u (item.id.getD "")) with
    | some ex =>
      simp only [processItem, hskip, Bool.false_eq_true, if_false, hfind]
      by_cases hlink : ((buildEventData u tD pD item).externalLink.isSome &&
          (buildEventData u tD pD item).externalLink != ex.externalLink) = true
      · rw [if_pos hlink, applyProcessExternalLink_enrichLog]
        simp
      · rw [if_neg hlink]
        simp
    | none =>
      simp only [processItem, hskip, Bool.false_eq_true, if_false, hfind]
      by_cases hlink : ((buildEventData u tD pD item).externalLink.isSome : Bool) = true
      · rw [if_pos hlink, applyProcessExternalLink_enrichLog]
        simp
      · rw [if_neg hlink]
        simp

/-! ## Claim theorems: calendar sync upsert / enrichment trigger -/

/-- C1: processing the same provider item twice enriches at most once in
total — the second pass finds the stored link unchanged and never invokes
`processExternalLinkAction` (its log is untouched), while the first pass
adds at most one invocation; and a fresh insert whose derived external link
is non-null counts as changed and triggers exactly one enrichment. -/
theorem syncTwice_enriches_once (u : String) (tD pD : String → String)
    (oracle : Nat → EnrichResult) (st : SyncState) (item : GoogleItem)
    (hnd : (st.rows.map (fun r => r.id)).Nodup) :
    (processItem u tD pD oracle (processItem u tD pD oracle st item) item).enrichLog =
      (processItem u tD pD oracle st item).enrichLog ∧
    (processItem u tD pD oracle st item).enrichLog.length ≤
      st.enrichLog.length + 1 ∧
    (st.rows.find? (matchesKey u (item.id.getD "")) = none →
      jsTruthyStr item.id = true → jsTruthyStr item.summary = true →
      (buildEventData u tD pD item).externalLink ≠ none →
      (processItem u tD pD oracle st item).enrichLog =
        st.enrichLog ++ [st.nextId]) := by
  refine ⟨?_, processItem_enrichLog_le u tD pD oracle st item, ?_⟩
  · cases hskip : (!jsTruthyStr item.id || !jsTruthyStr item.summary) with
    | true => simp [processItem, hskip]
    | false =>
      have hid : jsTruthyStr item.id = true := by
        cases h1 : jsTruthyStr item.id
        · rw [h1] at hskip
          cases hskip
        · rfl
      have hsum : jsTruthyStr item.summary = true := by
        cases h2 : jsTruthyStr item.summary
        · rw [h2, Bool.or_comm] at hskip
          cases hskip
        · rfl
      obtain ⟨r', hr', hext⟩ :=
        processItem_find_after u tD pD oracle st item hnd hid hsum
      exact processItem_enrichLog_of_unchanged u tD pD oracle _ item r' hr' hext
  · intro hfind hid hsum hlink
    have hskip : (!jsTruthyStr item.id || !jsTruthyStr item.summary) = false := by
      rw [hid, hsum]
      rfl
    have hsome : ((buildEventData u tD pD item).externalLink.isSome : Bool) = true := by
      cases h : (buildEventData u tD pD item).externalLink with
      | none => exact absurd h hlink
      | some v => rfl
    simp only [processItem, hskip, Bool.false_eq_true, if_false, hfind]
    rw [if_pos hsome, applyProcessExternalLink_enrichLog]

/-- Concrete instantiation of `syncTwice_enriches_once`: inserting
`sampleItem` into the empty table triggers exactly one enrichment. -/
theorem syncTwice_enriches_once_witness :
    (processItem "u" id id constOracle emptyState sampleItem).enrichLog =
      emptyState.enrichLog ++ [emptyState.nextId] :=
  (syncTwice_enriches_once "u" id id constOracle emptyState sampleItem
    (by simp [emptyState])).2.2 rfl (by decide) (by decide) (by decide)

/-- Two enrichment oracles with the same database effects (location
updates) produce identical per-item processing, whatever outcomes they
report: the `try`/`catch` swallows failures. -/
theorem processItem_oracle_congr (u : String) (tD pD : String → String)
    (o o' : Nat → EnrichResult)
    (hl : ∀ e, (o' e).locUpdate = (o e).locUpdate) :
    ∀ st item, processItem u tD pD o' st item = processItem u tD pD o st item := by
  have hape : ∀ e st, applyProcessExternalLink o' e st =
      applyProcessExternalLink o e st := by
    intro e st
    rw [applyProcessExternalLink_eq, applyProcessExternalLink_eq, hl e]
  intro st item
  cases hskip : (!jsTruthyStr item.id || !jsTruthyStr item.summary) with
  | true => simp [processItem, hskip]
  | false =>
    cases hfind : st.rows.find? (matchesKey u (item.id.getD "")) with
    | some ex =>
      simp only [processItem, hskip, Bool.false_eq_true, if_false, hfind]
      by_cases hlink : ((buildEventData u tD pD item).externalLink.isSome &&
          (buildEventData u tD pD item).externalLink != ex.externalLink) = true
      · rw [if_pos hlink, if_pos hlink, hape]
      · rw [if_neg hlink, if_neg hlink]
    | none =>
      simp only [processItem, hskip, Bool.false_eq_true, if_false, hfind]
      by_cases hlink : ((buildEventData u tD pD item).externalLink.isSome : Bool) = true
      · rw [if_pos hlink, if_pos hlink, hape]
      · rw [if_neg hlink, if_neg hlink]

/-- Row ids are untouched by the update of the found row. -/
theorem applyUpdate_map_id (d : EventData) (rid : Nat) (rows : List EventRow) :
    (applyUpdate d rid rows).map (fun r => r.id) = rows.map (fun r => r.id) := by
  unfold applyUpdate
  rw [List.map_map]
  refine List.map_congr_left ?_
  intro r _
  by_cases h : r.id = rid <;> simp [h]

/-- Row ids are untouched by an enrichment call. -/
theorem applyProcessExternalLink_map_id (oracle : Nat → EnrichResult)
    (e : Nat) (st : SyncState) :
    (applyProcessExternalLink oracle e st).rows.map (fun r => r.id) =
      st.rows.map (fun r => r.id) := by
  rw [applyProcessExternalLink_eq]
  cases (oracle e).locUpdate with
  | none => rfl
  | some loc =>
    simp only [List.map_map]
    refine List.map_congr_left ?_
    intro r _
    by_cases h : r.id = e <;> simp [h]

/-- An enrichment call does not change the fresh-id counter. -/
theorem applyProcessExternalLink_nextId (oracle : Nat → EnrichResult)
    (e : Nat) (st : SyncState) :
    (applyProcessExternalLink oracle e st).nextId = st.nextId := by
  rw [applyProcessExternalLink_eq]

/-- Processing an item preserves well-formedness of the events table. -/
theorem processItem_wf (u : String) (tD pD : String → String)
    (oracle : Nat → EnrichResult) (st : SyncState) (item : GoogleItem)
    (hwf : wfState st) : wfState (processItem u tD pD oracle st item) := by
  obtain ⟨hnd, hlt⟩ := hwf
  cases hskip : (!jsTruthyStr item.id || !jsTruthyStr item.summary) with
  | true => simpa [processItem, hskip] using ⟨hnd, hlt⟩
  | false =>
    cases hfind : st.rows.find? (matchesKey u (item.id.getD "")) with
    | some ex =>
      simp only [processItem, hskip, Bool.false_eq_true, if_false, hfind]
      have hbase : wfState
          { st with rows := applyUpdate (buildEventData u tD pD item) ex.id st.rows } := by
        constructor
        · rw [applyUpdate_map_id]
          exact hnd
        · intro r hr
          simp only [applyUpdate, List.mem_map] at hr
          obtain ⟨r0, hr0, rfl⟩ := hr
          by_cases h : r0.id = ex.id <;>
            simp [h, hlt r0 hr0, hlt ex (List.mem_of_find?_eq_some hfind)]
      by_cases hlink : ((buildEventData u tD pD item).externalLink.isSome &&
          (buildEventData u tD pD item).externalLink != ex.externalLink) = true
      · rw [if_pos hlink]
        refine ⟨?_, ?_⟩
        · rw [applyProcessExternalLink_map_id]
          exact hbase.1
        · intro r hr
          rw [applyProcessExternalLink_eq] at hr
          rw [applyProcessExternalLink_nextId]
          rcases hups : (oracle ex.id).locUpdate with - | loc
          · rw [hups] at hr
            exact hbase.2 r hr
          · rw [hups] at hr
            simp only [List.mem_map] at hr
            obtain ⟨r0, hr0, rfl⟩ := hr
            by_cases h : r0.id = ex.id <;>
              simp [h, hbase.2 r0 hr0, hlt ex (List.mem_of_find?_eq_some hfind)]
      · rw [if_neg hlink]
        exact hbase
    | none =>
      simp only [processItem, hskip, Bool.false_eq_true, if_false, hfind]
      have hbase : wfState
          { rows := st.rows ++
              [{ id := st.nextId, userId := (buildEventData u tD pD item).userId
                 eventTitle := (buildEventData u tD pD item).eventTitle
                 startTime := (buildEventData u tD pD item).startTime
                 endTime := none
                 location := (buildEventData u tD pD item).location
                 externalLink := (buildEventData u tD pD item).externalLink
                 calendarEventId := (buildEventData u tD pD item).calendarEventId }]
            nextId := st.nextId + 1, enrichLog := st.enrichLog } := by
        constructor
        · simp only [List.map_append, List.map_cons, List.map_nil]
          rw [List.nodup_append]
          refine ⟨hnd, List.nodup_singleton _, ?_⟩
          intro a ha hb
          simp only [List.mem_singleton] at hb
          subst hb
          simp only [List.mem_map] at ha
          obtain ⟨r0, hr0, hid0⟩ := ha
          exact absurd hid0 (Nat.ne_of_lt (hlt r0 hr0))
        · intro r hr
          rcases List.mem_append.mp hr with h | h
          · exact Nat.lt_succ_of_lt (hlt r h)
          · simp only [List.mem_singleton] at h
            subst h
            exact Nat.lt_succ_self _
      by_cases hlink : ((buildEventData u tD pD item).externalLink.isSome : Bool) = true
      · rw [if_pos hlink]
        refine ⟨?_, ?_⟩
        · rw [applyProcessExternalLink_map_id]
          exact hbase.1
        · intro r hr
          rw [applyProcessExternalLink_eq] at hr
          rw [applyProcessExternalLink_nextId]
          rcases hups : (oracle st.nextId).locUpdate with - | loc
          · rw [hups] at hr
            exact hbase.2 r hr
          · rw [hups] at hr
            simp only [List.mem_map] at hr
            obtain ⟨r0, hr0, rfl⟩ := hr
            by_cases h : r0.id = st.nextId <;> simp [h, hbase.2 r0 hr0]
      · rw [if_neg hlink]
        exact hbase

/-- An enrichment call keeps every sync key present (it can only overwrite
a row's location). -/
theorem applyProcessExternalLink_key_preserved (oracle : Nat → EnrichResult)
    (e : Nat) (st : SyncState) (u cid : String)
    (h : ∃ r ∈ st.rows, r.userId = u ∧ r.calendarEventId = some cid) :
    ∃ r ∈ (applyProcessExternalLink oracle e st).rows,
      r.userId = u ∧ r.calendarEventId = some cid := by
  obtain ⟨r, hr, hru, hrc⟩ := h
  rw [applyProcessExternalLink_eq]
  cases hl : (oracle e).locUpdate with
  | none => exact ⟨r, hr, hru, hrc⟩
  | some loc =>
    refine ⟨_, List.mem_map_of_mem
      (fun x => if x.id == e then { x with location := some loc } else x) hr, ?_, ?_⟩
    · by_cases hcase : r.id = e <;> simp [hcase, hru]
    · by_cases hcase : r.id = e <;> simp [hcase, hrc]

/-- Processing any item keeps every previously present sync key present:
the update overwrites the found row with the same key, the insert only
appends, and enrichment only touches locations. -/
theorem processItem_key_preserved (u : String) (tD pD : String → String)
    (oracle : Nat → EnrichResult) (st : SyncState) (item : GoogleItem)
    (hwf : wfState st) (cid : String)
    (h : ∃ r ∈ st.rows, r.userId = u ∧ r.calendarEventId = some cid) :
    ∃ r ∈ (processItem u tD pD oracle st item).rows,
      r.userId = u ∧ r.calendarEventId = some cid := by
  obtain ⟨hnd, hlt⟩ := hwf
  obtain ⟨r, hr, hru, hrc⟩ := h
  cases hskip : (!jsTruthyStr item.id || !jsTruthyStr item.summary) with
  | true =>
    simp only [processItem, hskip, if_true]
    exact ⟨r, hr, hru, hrc⟩
  | false =>
    have hid : jsTruthyStr item.id = true := by
      cases h1 : jsTruthyStr item.id
      · rw [h1] at hskip
        cases hskip
      · rfl
    obtain ⟨s, hs⟩ : ∃ s, item.id = some s := by
      cases h1 : item.id with
      | none => rw [h1] at hid; cases hid
      | some s => exact ⟨s, rfl⟩
    cases hfind : st.rows.find? (matchesKey u (item.id.getD "")) with
    | some ex =>
      simp only [processItem, hskip, Bool.false_eq_true, if_false, hfind]
      have hex : ex ∈ st.rows := List.mem_of_find?_eq_some hfind
      have hkey := List.find?_some hfind
      have hbase : ∃ r' ∈ applyUpdate (buildEventData u tD pD item) ex.id st.rows,
          r'.userId = u ∧ r'.calendarEventId = some cid := by
        by_cases hcase : r.id = ex.id
        · have hreq : r = ex := List.inj_on_of_nodup_map hnd hr hex hcase
          subst hreq
          have hcid : (some s : Option String) = some cid := by
            simp only [matchesKey, Bool.and_eq_true, beq_iff_eq, hs,
              Option.getD_some] at hkey
            rw [← hkey.2, hrc]
          refine ⟨_, List.mem_map_of_mem _ hr, ?_, ?_⟩
          · simp [buildEventData]
          · simp only [beq_self_eq_true, if_true]
            show (buildEventData u tD pD item).calendarEventId = some cid
            simp [buildEventData, hs, hcid]
        · refine ⟨_, List.mem_map_of_mem
            (fun x => if x.id == ex.id then
              { x with userId := (buildEventData u tD pD item).userId
                       eventTitle := (buildEventData u tD pD item).eventTitle
                       calendarEventId := (buildEventData u tD pD item).calendarEventId
                       startTime := (buildEventData u tD pD item).startTime
                       location := (buildEventData u tD pD item).location
                       externalLink := (buildEventData u tD pD item).externalLink }
              else x) hr, ?_, ?_⟩
          · simp [hcase, hru]
          · simp [hcase, hrc]
      by_cases hlink : ((buildEventData u tD pD item).externalLink.isSome &&
          (buildEventData u tD pD item).externalLink != ex.externalLink) = true
      · rw [if_pos hlink]
        exact applyProcessExternalLink_key_preserved oracle ex.id _ u cid hbase
      · rw [if_neg hlink]
        exact hbase
    | none =>
      simp only [processItem, hskip, Bool.false_eq_true, if_false, hfind]
      have hbase : ∃ r' ∈ st.rows ++
          [{ id := st.nextId, userId := (buildEventData u tD pD item).userId
             eventTitle := (buildEventData u tD pD item).eventTitle
             startTime := (buildEventData u tD pD item).startTime, endTime := none
             location := (buildEventData u tD pD item).location
             externalLink := (buildEventData u tD pD item).externalLink
             calendarEventId := (buildEventData u tD pD item).calendarEventId
             : EventRow }],
          r'.userId = u ∧ r'.calendarEventId = some cid :=
        ⟨r, List.mem_append_left _ hr, hru, hrc⟩
      by_cases hlink : ((buildEventData u tD pD item).externalLink.isSome : Bool) = true
      · rw [if_pos hlink]
        exact applyProcessExternalLink_key_preserved oracle st.nextId _ u cid hbase
      · rw [if_neg hlink]
        exact hbase

/-- Processing a non-skipped item leaves a row with that item's sync key in
the table (the upsert really happened). -/
theorem processItem_key_established (u : String) (tD pD : String → String)
    (oracle : Nat → EnrichResult) (st : SyncState) (item : GoogleItem)
    (hid : jsTruthyStr item.id = true) (hsum : jsTruthyStr item.summary = true) :
    ∃ r ∈ (processItem u tD pD oracle st item).rows,
      r.userId = u ∧ r.calendarEventId = item.id := by
  have hskip : (!jsTruthyStr item.id || !jsTruthyStr item.summary) = false := by
    rw [hid, hsum]
    rfl
  obtain ⟨s, hs⟩ : ∃ s, item.id = some s := by
    cases h1 : item.id with
    | none => rw [h1] at hid; cases hid
    | some s => exact ⟨s, rfl⟩
  have hconv : ∀ st' : SyncState,
      (∃ r ∈ st'.rows, r.userId = u ∧ r.calendarEventId = some s) →
      ∃ r ∈ st'.rows, r.userId = u ∧ r.calendarEventId = item.id := by
    intro st' ⟨r, hr, hru, hrc⟩
    exact ⟨r, hr, hru, hs ▸ hrc⟩
  cases hfind : st.rows.find? (matchesKey u (item.id.getD "")) with
  | some ex =>
    simp only [processItem, hskip, Bool.false_eq_true, if_false, hfind]
    have hex : ex ∈ st.rows := List.mem_of_find?_eq_some hfind
    have hbase : ∃ r' ∈ applyUpdate (buildEventData u tD pD item) ex.id st.rows,
        r'.userId = u ∧ r'.calendarEventId = some s := by
      refine ⟨_, List.mem_map_of_mem _ hex, ?_, ?_⟩
      · simp [buildEventData]
      · simp only [beq_self_eq_true, if_true]
        show (buildEventData u tD pD item).calendarEventId = some s
        simp [buildEventData, hs]
    by_cases hlink : ((buildEventData u tD pD item).externalLink.isSome &&
        (buildEventData u tD pD item).externalLink != ex.externalLink) = true
    · rw [if_pos hlink]
      exact hconv _ (applyProcessExternalLink_key_preserved oracle ex.id _ u s hbase)
    · rw [if_neg hlink]
      exact hconv _ hbase
  | none =>
    simp only [processItem, hskip, Bool.false_eq_true, if_false, hfind]
    have hbase : ∃ r' ∈ st.rows ++
        [{ id := st.nextId, userId := (buildEventData u tD pD item).userId
           eventTitle := (buildEventData u tD pD item).eventTitle
           startTime := (buildEventData u tD pD item).startTime, endTime := none
           location := (buildEventData u tD pD item).location
           externalLink := (buildEventData u tD pD item).externalLink
           calendarEventId := (buildEventData u tD pD item).calendarEventId
           : EventRow }],
        r'.userId = u ∧ r'.calendarEventId = some s := by
      refine ⟨_, List.mem_append_right _ (List.mem_singleton_self _), ?_, ?_⟩
      · simp [buildEventData]
      · simp [buildEventData, hs]
    by_cases hlink : ((buildEventData u tD pD item).externalLink.isSome : Bool) = true
    · rw [if_pos hlink]
      exact hconv _ (applyProcessExternalLink_key_preserved oracle st.nextId _ u s hbase)
    · rw [if_neg hlink]
      exact hconv _ hbase

/-- The per-event loop preserves table well-formedness. -/
theorem foldl_processItem_wf (u : String) (tD pD : String → String)
    (oracle : Nat → EnrichResult) :
    ∀ (items : List GoogleItem) (st : SyncState), wfState st →
      wfState (items.foldl (processItem u tD pD oracle) st) := by
  intro items
  induction items with
  | nil => intro st h; exact h
  | cons it rest ih =>
    intro st h
    rw [List.foldl_cons]
    exact ih _ (processItem_wf u tD pD oracle st it h)

/-- The per-event loop keeps every previously present sync key present. -/
theorem foldl_processItem_key_preserved (u : String) (tD pD : String → String)
    (oracle : Nat → EnrichResult) :
    ∀ (items : List GoogleItem) (st : SyncState) (cid : String), wfState st →
      (∃ r ∈ st.rows, r.userId = u ∧ r.calendarEventId = some cid) →
      ∃ r ∈ (items.foldl (processItem u tD pD oracle) st).rows,
        r.userId = u ∧ r.calendarEventId = some cid := by
  intro items
  induction items with
  | nil => intro st cid _ h; exact h
  | cons it rest ih =>
    intro st cid hwf h
    rw [List.foldl_cons]
    exact ih _ cid (processItem_wf u tD pD oracle st it hwf)
      (processItem_key_preserved u tD pD oracle st it hwf cid h)

/-- Every valid item of the window ends up upserted by the loop. -/
theorem foldl_processItem_upserts (u : String) (tD pD : String → String)
    (oracle : Nat → EnrichResult) :
    ∀ (items : List GoogleItem) (st : SyncState), wfState st →
      ∀ item ∈ items, jsTruthyStr item.id = true →
        jsTruthyStr item.summary = true →
        ∃ r ∈ (items.foldl (processItem u tD pD oracle) st).rows,
          r.userId = u ∧ r.calendarEventId = item.id := by
  intro items
  induction items with
  | nil => intro st _ item hmem; cases hmem
  | cons it rest ih =>
    intro st hwf item hmem hid hsum
    rw [List.foldl_cons]
    rcases List.mem_cons.mp hmem with rfl | hmem'
    · obtain ⟨s, hs⟩ : ∃ s, item.id = some s := by
        cases h1 : item.id with
        | none => rw [h1] at hid; cases hid
        | some s => exact ⟨s, rfl⟩
      obtain ⟨r, hr, hru, hrc⟩ :=
        processItem_key_established u tD pD oracle st item hid hsum
      obtain ⟨r', hr', hru', hrc'⟩ :=
        foldl_processItem_key_preserved u tD pD oracle rest
          (processItem u tD pD oracle st item) s
          (processItem_wf u tD pD oracle st item hwf)
          ⟨r, hr, hru, hs ▸ hrc⟩
      exact ⟨r', hr', hru', hs ▸ hrc'⟩
    · exact ih _ (processItem_wf u tD pD oracle st it hwf) item hmem' hid hsum

/-- Once the token and fetch guards pass, the sync action runs the whole
per-event loop and reports success. -/
theorem syncCalendarEventsAction_run (u : String) (p : Profile) (now : Int)
    (refreshResult : Option String)
    (fetchResult : Int → Int → Option GoogleEventsResponse)
    (tD pD : String → String) (oracle : Nat → EnrichResult)
    (timeMin timeMax : Option Int) (st : SyncState)
    (resp : GoogleEventsResponse) (items : List GoogleItem)
    (htok : jsTruthyStr p.googleAccessToken = true)
    (hrefresh : ∀ e, p.googleTokenExpires = some e → e < now →
      jsTruthyStr refreshResult = true)
    (hfetch : fetchResult (timeMin.getD now)
      (timeMax.getD (now + 30 * 24 * 60 * 60 * 1000)) = some resp)
    (hitems : resp.items = some items) :
    syncCalendarEventsAction u (some p) now refreshResult fetchResult tD pD
        oracle timeMin timeMax st =
      (true, items.foldl (processItem u tD pD oracle) st) := by
  have hguard : (((match p.googleTokenExpires with
      | some e => decide (e < now)
      | none => false) : Bool) && !jsTruthyStr refreshResult) = false := by
    cases hexp : p.googleTokenExpires with
    | none => rfl
    | some e =>
      by_cases he : e < now
      · rw [hrefresh e hexp he]
        simp [he]
      · simp [he]
  simp only [syncCalendarEventsAction, htok, Bool.not_true, Bool.false_eq_true,
    if_false, hguard, hfetch, hitems]

/-- C8: once the sync reaches the per-event loop, enrichment outcomes are
immaterial — whatever the oracle reports (including failure or a thrown
error on every event), the loop runs over all items, the final state is the
full fold of the upserts, every valid item is upserted, and the action still
reports `isSuccess = true`. -/
theorem syncCalendar_success_despite_enrichment_failures (u : String)
    (p : Profile) (now : Int) (refreshResult : Option String)
    (fetchResult : Int → Int → Option GoogleEventsResponse)
    (tD pD : String → String) (oracle : Nat → EnrichResult)
    (timeMin timeMax : Option Int) (st : SyncState)
    (resp : GoogleEventsResponse) (items : List GoogleItem)
    (htok : jsTruthyStr p.googleAccessToken = true)
    (hrefresh : ∀ e, p.googleTokenExpires = some e → e < now →
      jsTruthyStr refreshResult = true)
    (hfetch : fetchResult (timeMin.getD now)
      (timeMax.getD (now + 30 * 24 * 60 * 60 * 1000)) = some resp)
    (hitems : resp.items = some items)
    (hwf : wfState st) :
    (syncCalendarEventsAction u (some p) now refreshResult fetchResult tD pD
        oracle timeMin timeMax st).1 = true ∧
    (syncCalendarEventsAction u (some p) now refreshResult fetchResult tD pD
        oracle timeMin timeMax st).2 =
      items.foldl (processItem u tD pD oracle) st ∧
    (∀ oracle' : Nat → EnrichResult,
      (∀ e, (oracle' e).locUpdate = (oracle e).locUpdate) →
      syncCalendarEventsAction u (some p) now refreshResult fetchResult tD pD
          oracle' timeMin timeMax st =
        syncCalendarEventsAction u (some p) now refreshResult fetchResult tD pD
          oracle timeMin timeMax st) ∧
    ∀ item ∈ items, jsTruthyStr item.id = true →
      jsTruthyStr item.summary = true →
      ∃ r ∈ (syncCalendarEventsAction u (some p) now refreshResult fetchResult
          tD pD oracle timeMin timeMax st).2.rows,
        r.userId = u ∧ r.calendarEventId = item.id := by
  have hrun := syncCalendarEventsAction_run u p now refreshResult fetchResult
    tD pD oracle timeMin timeMax st resp items htok hrefresh hfetch hitems
  refine ⟨by rw [hrun], by rw [hrun], ?_, ?_⟩
  · intro oracle' hl
    have hrun' := syncCalendarEventsAction_run u p now refreshResult fetchResult
      tD pD oracle' timeMin timeMax st resp items htok hrefresh hfetch hitems
    rw [hrun, hrun']
    have hfold : ∀ (its : List GoogleItem) (s0 : SyncState),
        its.foldl (processItem u tD pD oracle') s0 =
          its.foldl (processItem u tD pD oracle) s0 := by
      intro its
      induction its with
      | nil => intro s0; rfl
      | cons it rest ih =>
        intro s0
        rw [List.foldl_cons, List.foldl_cons,
          processItem_oracle_congr u tD pD oracle oracle' hl s0 it, ih]
    rw [hfold]
  · intro item hmem hid hsum
    rw [hrun]
    exact foldl_processItem_upserts u tD pD oracle items st hwf item hmem hid hsum

/-- Concrete instantiation of
`syncCalendar_success_despite_enrichment_failures`: with an
always-failing enrichment oracle the sync still succeeds. -/
theorem syncCalendar_success_witness :
    (syncCalendarEventsAction "u" (some sampleProfile) 0 none sampleFetch
      id id constOracle none none emptyState).1 = true :=
  (syncCalendar_success_despite_enrichment_failures "u" sampleProfile 0 none
    sampleFetch id id constOracle none none emptyState
    { items := some [sampleItem] } [sampleItem]
    (by decide) (fun e he => by cases he) rfl rfl
    ⟨by simp [emptyState], by simp [emptyState]⟩).1

end Spec2Proof
